import Mathlib

/-!
Shallow embedding of the `txs` ledger (src/main.rs).

Conventions of the embedding:
* Rust `u64` values are `Nat`; where the code performs `u64` addition the
  embedding uses `wadd`, addition reduced modulo `2 ^ 64` (the two's-complement
  wrapping semantics of `u64` `+` when overflow checks are disabled).
* Rust `i8` values are `Int`; the `i as i8` narrowing cast of a `usize` is
  `toI8` (low 8 bits reinterpreted as a signed byte).
* `SHA-256` digests are abstracted by a `HashModel`: a pair of deterministic
  functions producing the transaction id (computed over the transaction with
  its `id` field empty, exactly as `Transaction::new` does) and the block hash
  (computed over timestamp, transactions and previous hash, as `Block::new`
  does).  The spec treats collision-freedom of the digest as a cryptographic
  given; theorems that need it take it as an explicit hypothesis.
* The RocksDB handle is an association list from keys to values, where a value
  is either an encoded block or a raw hash string; the first matching entry
  wins on lookup, and `put` prepends (so it shadows older entries, like an
  overwriting key-value store).  `panic!`/`unwrap` failures surface as
  `Option`/`Except` failures.
* `HashMap<String, Vec<i8>>` (`IndexMap`) is an association list; `get` and
  `entry(..).or_insert(..).push(..)` are order-insensitive, and the
  unspecified iteration order used by `Blockchain::send` is a parameter
  `iter : IterFn` (theorems constrain it to be a permutation of the entries).
-/

/-- `usize as i8`: keep the low 8 bits, reinterpret as two's complement. -/
def toI8 (i : Nat) : Int :=
  if i % 256 < 128 then ((i % 256 : Nat) : Int) else ((i % 256 : Nat) : Int) - 256

/-- Wrapping `u64` addition. -/
def wadd (a b : Nat) : Nat := (a + b) % 2 ^ 64

structure Input where
  txid : String
  index : Int
  sig : String
deriving DecidableEq

structure Output where
  amount : Nat
  pubkey : String
deriving DecidableEq

/-- `Output::unlocked_by`. -/
def Output.unlocked_by (o : Output) (addr : String) : Bool :=
  o.pubkey == addr

structure Transaction where
  id : String
  inputs : List Input
  outputs : List Output
deriving DecidableEq

structure Block where
  timestamp : Nat
  transactions : List Transaction
  prev_hash : String
  hash : String
deriving DecidableEq

/-- Abstract content hasher (see the header comment). -/
structure HashModel where
  txHash : List Input → List Output → String
  blockHash : Nat → List Transaction → String → String

/-- `Transaction::new`: hash the transaction with `id` empty, then assign. -/
def Transaction.new (H : HashModel) (inputs : List Input) (outputs : List Output) :
    Transaction :=
  { id := H.txHash inputs outputs, inputs := inputs, outputs := outputs }

/-- `Transaction::coinbase`: one sentinel input, one 100-unit output to "dog". -/
def Transaction.coinbase (H : HashModel) : Transaction :=
  Transaction.new H [{ txid := "", index := -1, sig := "" }]
    [{ amount := 100, pubkey := "dog" }]

/-- `Transaction::is_coinbase`. -/
def Transaction.is_coinbase (t : Transaction) : Bool :=
  match t.inputs with
  | [inp] => inp.txid == "" && inp.index == -1
  | _ => false

/-- `Block::new` with the timestamp supplied explicitly. -/
def Block.new (H : HashModel) (ts : Nat) (txs : List Transaction) (prev : String) :
    Block :=
  { timestamp := ts, transactions := txs, prev_hash := prev,
    hash := H.blockHash ts txs prev }

/-- `type IndexMap = HashMap<String, Vec<i8>>`, as an association list. -/
abbrev IndexMap := List (String × List Int)

/-- `HashMap::get`. -/
def mapGet : IndexMap → String → Option (List Int)
  | [], _ => none
  | (k', v) :: rest, k => if k' == k then some v else mapGet rest k

/-- `map.entry(k).or_insert(vec![]).push(i)`. -/
def mapInsert : IndexMap → String → Int → IndexMap
  | [], k, i => [(k, [i])]
  | (k', v) :: rest, k, i =>
      if k' == k then (k', v ++ [i]) :: rest
      else (k', v) :: mapInsert rest k i

/-- Membership of `(k, v)` in an `IndexMap`. -/
def mapMem (m : IndexMap) (k : String) (v : Int) : Prop :=
  match mapGet m k with
  | some idxs => v ∈ idxs
  | none => False

instance (m : IndexMap) (k : String) (v : Int) : Decidable (mapMem m k v) := by
  unfold mapMem
  match mapGet m k with
  | some idxs => exact inferInstanceAs (Decidable (v ∈ idxs))
  | none => exact inferInstanceAs (Decidable False)

/-- The spent-check of `unspent_txs`: is output position `i` of transaction
`id` recorded in `spent` (after the `i as i8` narrowing)? -/
def spentHit (spent : IndexMap) (id : String) (i : Nat) : Bool :=
  match mapGet spent id with
  | some idxs => idxs.contains (toI8 i)
  | none => false

/-- The labelled output loop of `unspent_txs` for one transaction: one copy of
`t` is appended per enumerated output that is not recorded spent and is owned
by `addr`. -/
def scanOutputs (addr : String) (spent : IndexMap) (t : Transaction) :
    List (Nat × Output) → List Transaction
  | [] => []
  | (i, out) :: rest =>
      if spentHit spent t.id i then scanOutputs addr spent t rest
      else if out.unlocked_by addr then t :: scanOutputs addr spent t rest
      else scanOutputs addr spent t rest

/-- The input loop of `unspent_txs` for one transaction: non-coinbase inputs
authorized by `addr` record `(txid, index)` as spent. -/
def recordSpends (addr : String) (t : Transaction) (spent : IndexMap) : IndexMap :=
  if t.is_coinbase then spent
  else t.inputs.foldl
    (fun s inp => if inp.sig == addr then mapInsert s inp.txid inp.index else s) spent

/-- One iteration of the transaction loop of `unspent_txs`. -/
def processTx (addr : String) (st : IndexMap × List Transaction) (t : Transaction) :
    IndexMap × List Transaction :=
  (recordSpends addr t st.1, st.2 ++ scanOutputs addr st.1 t t.outputs.enum)

/-- `Blockchain::unspent_txs`, over the flattened transaction sequence the
chain walk produces (newest block first, transactions in stored order). -/
def unspent_txs_list (txs : List Transaction) (addr : String) : List Transaction :=
  (txs.foldl (processTx addr) ([], [])).2

/-- The spent map accumulated by `unspent_txs`. -/
def spentMapOf (txs : List Transaction) (addr : String) : IndexMap :=
  (txs.foldl (processTx addr) ([], [])).1

/-- `Blockchain::utxos`. -/
def utxos_list (txs : List Transaction) (addr : String) : List Output :=
  (unspent_txs_list txs addr).flatMap
    (fun t => t.outputs.filter (fun o => o.unlocked_by addr))

/-- `Blockchain::balance` (wrapping `u64` fold). -/
def balance_list (txs : List Transaction) (addr : String) : Nat :=
  (utxos_list txs addr).foldl (fun a o => wadd a o.amount) 0

/-- The exact (unbounded) sum of the amounts `Blockchain::balance` folds over. -/
def exactBalance (txs : List Transaction) (addr : String) : Nat :=
  ((utxos_list txs addr).map (fun o => o.amount)).sum

/-- The output loop of `unspent_outputs` for one transaction; returns the
updated sum and selection, and whether `break 'tx` fired. -/
def selOutputs (addr : String) (amount : Nat) (txid : String) :
    List (Nat × Output) → Nat → IndexMap → Nat × IndexMap × Bool
  | [], sum, sel => (sum, sel, false)
  | (i, out) :: rest, sum, sel =>
      if out.unlocked_by addr ∧ sum < amount then
        let sum' := wadd sum out.amount
        let sel' := mapInsert sel txid (toI8 i)
        if amount ≤ sum' then (sum', sel', true)
        else selOutputs addr amount txid rest sum' sel'
      else selOutputs addr amount txid rest sum sel

/-- The transaction loop of `unspent_outputs`. -/
def selTxs (addr : String) (amount : Nat) :
    List Transaction → Nat → IndexMap → Nat × IndexMap
  | [], sum, sel => (sum, sel)
  | t :: rest, sum, sel =>
      let r := selOutputs addr amount t.id t.outputs.enum sum sel
      if r.2.2 then (r.1, r.2.1) else selTxs addr amount rest r.1 r.2.1

/-- `Blockchain::unspent_outputs` over the flattened transaction sequence. -/
def unspent_outputs_list (txs : List Transaction) (addr : String) (amount : Nat) :
    Nat × IndexMap :=
  selTxs addr amount (unspent_txs_list txs addr) 0 []

inductive TxErr where
  | insufficientFunds
  | storage
deriving DecidableEq

/-- The unspecified iteration order of `HashMap` in `Blockchain::send`. -/
abbrev IterFn := IndexMap → IndexMap

/-- The inputs `Blockchain::send` builds from a selection, in the order the
selection entries are enumerated. -/
def canonInputs (sel : IndexMap) (frm : String) : List Input :=
  sel.flatMap (fun p => p.2.map (fun i => { txid := p.1, index := i, sig := frm }))

/-- `Blockchain::send` over the flattened transaction sequence.  `iter` stands
for the `HashMap` iteration order over the selection. -/
def send_list (H : HashModel) (iter : IterFn) (txs : List Transaction)
    (frm dst : String) (amount : Nat) : Except TxErr Transaction :=
  let r := unspent_outputs_list txs frm amount
  if r.1 < amount then .error .insufficientFunds
  else
    let inputs := canonInputs (iter r.2) frm
    let outputs := { amount := amount, pubkey := dst } ::
      (if r.1 > amount then [{ amount := r.1 - amount, pubkey := frm }] else [])
    .ok (Transaction.new H inputs outputs)

/-- A stored value: an encoded block, or raw hash bytes. -/
inductive Val where
  | blk (b : Block)
  | str (s : String)
deriving DecidableEq

/-- The RocksDB handle, as an overwriting key-value store. -/
abbrev Store := List (String × Val)

def Store.get (db : Store) (k : String) : Option Val :=
  match db with
  | [] => none
  | (k', v) :: rest => if k' == k then some v else Store.get rest k

def Store.put (db : Store) (k : String) (v : Val) : Store :=
  (k, v) :: db

/-- `Block::save`: write the encoded block under its hash, then the hash under
`"tip"`. -/
def Block.save (b : Block) (db : Store) : Store :=
  Store.put (Store.put db b.hash (.blk b)) "tip" (.str b.hash)

structure ChainState where
  db : Store
  tip : String
deriving DecidableEq

/-- The genesis block created by `Blockchain::new` when the store has no tip. -/
def genesisBlock (H : HashModel) (ts : Nat) : Block :=
  Block.new H ts [Transaction.coinbase H] ""

/-- `Blockchain::new`: load the tip, or create and persist genesis.  `none`
models the `panic!` on a store whose `"tip"` entry is not a hash string. -/
def Blockchain.new (H : HashModel) (ts : Nat) (db : Store) :
    Option (Store × String) :=
  match Store.get db "tip" with
  | some (.str t) => some (db, t)
  | some (.blk _) => none
  | none =>
      let b := genesisBlock H ts
      some (Block.save b db, b.hash)

/-- The `while tip != ""` loop of `Blockchain::blocks`, with explicit fuel:
each unit of fuel pays for one iteration (one store lookup).  `none` models
both running out of fuel and the `unwrap` panic on a missing or non-block
entry. -/
def blocksAux (db : Store) : Nat → String → Option (List Block)
  | 0, tip => if tip = "" then some [] else none
  | fuel + 1, tip =>
      if tip = "" then some []
      else
        match Store.get db tip with
        | some (.blk b) => (blocksAux db fuel b.prev_hash).map (fun bs => b :: bs)
        | _ => none

/-- `Blockchain::blocks` from the current tip. -/
def Blockchain.blocks (c : ChainState) (fuel : Nat) : Option (List Block) :=
  blocksAux c.db fuel c.tip

/-- `Blockchain::add`. -/
def Blockchain.add (H : HashModel) (ts : Nat) (c : ChainState)
    (txs : List Transaction) : ChainState × Block :=
  let b := Block.new H ts txs c.tip
  ({ db := Block.save b c.db, tip := b.hash }, b)

/-- The transactions seen by `unspent_txs`: blocks newest first, transactions
of each block in stored order. -/
def chainTxs (bs : List Block) : List Transaction :=
  bs.flatMap (fun b => b.transactions)

/-- `Blockchain::send` on a chain state. -/
def Blockchain.send (H : HashModel) (iter : IterFn) (c : ChainState) (fuel : Nat)
    (frm dst : String) (amount : Nat) : Except TxErr Transaction :=
  match Blockchain.blocks c fuel with
  | none => .error .storage
  | some bs => send_list H iter (chainTxs bs) frm dst amount

/-- The `send` subcommand of `main`: build the transaction, then append it.
On failure the state is untouched (the `panic!` aborts before `add`). -/
def Blockchain.transfer (H : HashModel) (iter : IterFn) (ts : Nat) (c : ChainState)
    (fuel : Nat) (frm dst : String) (amount : Nat) :
    ChainState × Except TxErr Block :=
  match Blockchain.send H iter c fuel frm dst amount with
  | .error e => (c, .error e)
  | .ok tx =>
      let r := Blockchain.add H ts c [tx]
      (r.1, .ok r.2)

/-- The argument-shape destructuring at the top of `main` (`argv` includes the
program name, as `env::args` does). -/
def argsTriple (argv : List String) : String × String × String :=
  match argv with
  | [_, a] => (a, "", "")
  | [_, a, b] => (a, b, "")
  | [_, a, b, c] => (a, b, c)
  | _ => ("", "", "")

inductive Cmd where
  | blocksCmd
  | balanceCmd (addr : String)
  | sendCmd (f t : String)
  | badCmd
deriving DecidableEq

/-- The `match args` dispatch of `main`, arm by arm. -/
def dispatch : String × String × String → Cmd
  | ("blocks", "", "") => .blocksCmd
  | ("balance", addr, "") => .balanceCmd addr
  | ("send", f, t) => .sendCmd f t
  | _ => .badCmd

inductive CmdResult where
  | blocksOut (bs : List Block)
  | balanceOut (addr : String) (n : Nat)
  | sentOut (b : Block)
  | badArgs
deriving DecidableEq

/-- `main`: note that `Blockchain::new` runs (and may create genesis) before
the arguments are dispatched.  Returns the final store contents and what was
printed; `none` models a panic. -/
def mainRun (H : HashModel) (iter : IterFn) (fuel ts : Nat) (argv : List String)
    (db : Store) : Option (Store × CmdResult) :=
  match Blockchain.new H ts db with
  | none => none
  | some (db2, tip) =>
      let c : ChainState := { db := db2, tip := tip }
      match dispatch (argsTriple argv) with
      | .blocksCmd =>
          (Blockchain.blocks c fuel).map (fun bs => (c.db, .blocksOut bs))
      | .balanceCmd a =>
          (Blockchain.blocks c fuel).map
            (fun bs => (c.db, .balanceOut a (balance_list (chainTxs bs) a)))
      | .sendCmd f t =>
          match Blockchain.send H iter c fuel f t 10 with
          | .error _ => none
          | .ok tx =>
              let r := Blockchain.add H ts c [tx]
              some (r.1.db, .sentOut r.2)
      | .badCmd => some (c.db, .badArgs)

instance {ε α : Type} [DecidableEq ε] [DecidableEq α] : DecidableEq (Except ε α) :=
  fun x y =>
    match x, y with
    | .ok a, .ok b =>
        if h : a = b then .isTrue (by rw [h])
        else .isFalse (by intro hc; cases hc; exact h rfl)
    | .error a, .error b =>
        if h : a = b then .isTrue (by rw [h])
        else .isFalse (by intro hc; cases hc; exact h rfl)
    | .ok _, .error _ => .isFalse (by intro hc; cases hc)
    | .error _, .ok _ => .isFalse (by intro hc; cases hc)

/-- A concrete hash model used for witness states: transaction ids are a fixed
tag, block hashes encode the timestamp and previous hash (injective along the
chains built below). -/
def Hc : HashModel :=
  { txHash := fun _ _ => "coinhash",
    blockHash := fun ts _ prev => toString ts ++ "#" ++ prev }

/-- A transaction with two outputs owned by `"x"` (duplicate-output scenario). -/
def tDup : Transaction :=
  { id := "d1", inputs := [{ txid := "", index := -1, sig := "" }],
    outputs := [{ amount := 3, pubkey := "x" }, { amount := 4, pubkey := "x" }] }

/-- Two single-output transactions for `"a"`, in one block: a state whose coin
selection spans two transaction ids. -/
def t71 : Transaction :=
  { id := "t1", inputs := [{ txid := "", index := -1, sig := "" }],
    outputs := [{ amount := 5, pubkey := "a" }] }

def t72 : Transaction :=
  { id := "t2", inputs := [{ txid := "", index := -1, sig := "" }],
    outputs := [{ amount := 5, pubkey := "a" }] }

def b7 : Block :=
  { timestamp := 1, transactions := [t71, t72], prev_hash := "", hash := "h7" }

def c7 : ChainState :=
  { db := [("tip", Val.str "h7"), ("h7", Val.blk b7)], tip := "h7" }

/-- A stored transaction whose owned amounts sum to `2 ^ 64`, so the `u64`
balance fold wraps to `0`. -/
def tBig2 : Transaction :=
  { id := "tb", inputs := [{ txid := "", index := -1, sig := "" }],
    outputs := [{ amount := 2 ^ 64 - 1, pubkey := "a" }, { amount := 1, pubkey := "a" }] }

def bBig : Block :=
  { timestamp := 1, transactions := [tBig2], prev_hash := "", hash := "hb" }

def cBig : ChainState :=
  { db := [("tip", Val.str "hb"), ("hb", Val.blk bBig)], tip := "hb" }

/-- Two outputs of `2 ^ 63` each: the balance fold wraps to `0`. -/
def tBig : Transaction :=
  { id := "t9", inputs := [{ txid := "", index := -1, sig := "" }],
    outputs := [{ amount := 2 ^ 63, pubkey := "a" }, { amount := 2 ^ 63, pubkey := "a" }] }

/-- A non-coinbase transaction spending output 1 of `"big"`, authorized by `"a"`. -/
def spendC10 : Transaction :=
  { id := "s", inputs := [{ txid := "big", index := 1, sig := "a" }], outputs := [] }

/-- A transaction with 258 outputs, all owned by `"a"`: positions 1 and 257
collide after the `i as i8` narrowing. -/
def bigTx : Transaction :=
  { id := "big", inputs := [{ txid := "", index := -1, sig := "" }],
    outputs := List.replicate 258 { amount := 1, pubkey := "a" } }

/-- The state `Blockchain::new` produces from an empty store (genesis at
timestamp 1). -/
def c1w : ChainState :=
  { db := Block.save (genesisBlock Hc 1) [], tip := (genesisBlock Hc 1).hash }

/-- One empty block appended on top of `c1w`. -/
def c2w : ChainState := (Blockchain.add Hc 2 c1w []).1

def bs2w : List Block := [(Blockchain.add Hc 2 c1w []).2, genesisBlock Hc 1]

/-- The transfer of 10 from `"dog"` to `"cat"` built on `c1w` (any iteration
order: the selection has a single entry). -/
def txW : Transaction :=
  { id := "coinhash",
    inputs := [{ txid := "coinhash", index := 0, sig := "dog" }],
    outputs := [{ amount := 10, pubkey := "cat" }, { amount := 90, pubkey := "dog" }] }

/-- The amounts of the owned outputs among an enumerated output list, in
order: exactly the amounts the selection loop may accumulate. -/
def ownedAmounts (addr : String) (l : List (Nat × Output)) : List Nat :=
  (l.filter (fun p => p.2.unlocked_by addr)).map (fun p => p.2.amount)

/-- The amounts the selection loop ranges over, transaction by transaction. -/
def poolAmounts (addr : String) (ts : List Transaction) : List Nat :=
  ts.flatMap (fun t => ownedAmounts addr t.outputs.enum)

/-- Hash of the newest block of a chain, `""` for the empty chain. -/
def headHash : List Block → String
  | [] => ""
  | b :: _ => b.hash

/-- The blocks form a hash-linked chain ending in the genesis sentinel. -/
def Linked : List Block → Prop
  | [] => True
  | [b] => b.prev_hash = ""
  | b :: b2 :: rest => b.prev_hash = b2.hash ∧ Linked (b2 :: rest)

/-- Reachable ledger states, together with the blocks ever appended (newest
first): genesis created by `Blockchain::new` on an empty store, followed by
any number of `Blockchain::add` calls. -/
inductive Built (H : HashModel) : ChainState → List Block → Prop where
  | init (ts : Nat) :
      Built H { db := Block.save (genesisBlock H ts) [], tip := (genesisBlock H ts).hash }
        [genesisBlock H ts]
  | step (c : ChainState) (bs : List Block) (ts : Nat) (txs : List Transaction) :
      Built H c bs →
      Built H (Blockchain.add H ts c txs).1 ((Blockchain.add H ts c txs).2 :: bs)

theorem mapMem_iff (m : IndexMap) (k : String) (v : Int) :
    mapMem m k v ↔ ∃ idxs, mapGet m k = some idxs ∧ v ∈ idxs := by
  unfold mapMem
  cases h : mapGet m k <;> simp [h]

theorem mapMem_nil (k : String) (v : Int) : ¬ mapMem [] k v := by
  simp [mapMem, mapGet]

theorem mapGet_mapInsert (s : IndexMap) (k : String) (i : Int) (k' : String) :
    mapGet (mapInsert s k i) k' =
      if k' = k then some ((mapGet s k).getD [] ++ [i]) else mapGet s k' := by
  induction s with
  | nil =>
      by_cases h : k' = k
      · subst h
        simp [mapInsert, mapGet]
      · simp [mapInsert, mapGet, h, beq_iff_eq, Ne.symm h]
  | cons p rest ih =>
      obtain ⟨a, w⟩ := p
      by_cases hak : a = k
      · subst hak
        by_cases h : k' = a
        · subst h
          simp [mapInsert, mapGet]
        · simp [mapInsert, mapGet, h, beq_iff_eq, Ne.symm h]
      · by_cases h : a = k'
        · subst h
          simp [mapInsert, mapGet, hak, beq_iff_eq]
        · simp [mapInsert, mapGet, hak, h, beq_iff_eq, ih]

theorem mapMem_mapInsert (s : IndexMap) (k : String) (i : Int) (k' : String)
    (v : Int) :
    mapMem (mapInsert s k i) k' v ↔ mapMem s k' v ∨ (k = k' ∧ i = v) := by
  rw [mapMem_iff, mapMem_iff, mapGet_mapInsert]
  by_cases h : k' = k
  · rw [if_pos h, h]
    cases hg : mapGet s k with
    | none => simp [hg, eq_comm]
    | some idxs => simp [hg, eq_comm]
  · have hne : ¬ k = k' := fun hh => h hh.symm
    simp [h, hne]

theorem mapMem_foldl_inputs (addr : String) (l : List Input) (s : IndexMap)
    (k : String) (v : Int) :
    mapMem (l.foldl (fun s inp =>
        if inp.sig == addr then mapInsert s inp.txid inp.index else s) s) k v ↔
      mapMem s k v ∨ ∃ inp ∈ l, inp.sig = addr ∧ inp.txid = k ∧ inp.index = v := by
  induction l generalizing s with
  | nil => simp
  | cons a l ih =>
      simp only [List.foldl_cons]
      by_cases h : a.sig = addr
      · rw [if_pos (by simp [h]), ih, mapMem_mapInsert]
        simp only [List.mem_cons]
        constructor
        · rintro (⟨hm | ⟨hk, hv⟩⟩ | ⟨inp, hin, hprops⟩)
          · exact Or.inl hm
          · exact Or.inr ⟨a, Or.inl rfl, h, hk, hv⟩
          · exact Or.inr ⟨inp, Or.inr hin, hprops⟩
        · rintro (hm | ⟨inp, hin | hin, hprops⟩)
          · exact Or.inl (Or.inl hm)
          · subst hin
            exact Or.inl (Or.inr ⟨hprops.2.1, hprops.2.2⟩)
          · exact Or.inr ⟨inp, hin, hprops⟩
      · rw [if_neg (by simp [h]), ih]
        simp only [List.mem_cons]
        constructor
        · rintro (hm | ⟨inp, hin, hprops⟩)
          · exact Or.inl hm
          · exact Or.inr ⟨inp, Or.inr hin, hprops⟩
        · rintro (hm | ⟨inp, hin | hin, hprops⟩)
          · exact Or.inl hm
          · subst hin
            exact absurd hprops.1 h
          · exact Or.inr ⟨inp, hin, hprops⟩

theorem mapMem_recordSpends (addr : String) (t : Transaction) (s : IndexMap)
    (k : String) (v : Int) :
    mapMem (recordSpends addr t s) k v ↔
      mapMem s k v ∨ (t.is_coinbase = false ∧
        ∃ inp ∈ t.inputs, inp.sig = addr ∧ inp.txid = k ∧ inp.index = v) := by
  unfold recordSpends
  cases h : t.is_coinbase
  · rw [if_neg (by simp [h]), mapMem_foldl_inputs]
    simp
  · rw [if_pos (by simp [h])]
    simp [h]

theorem foldl_processTx_fst (addr : String) (txs : List Transaction)
    (p : IndexMap × List Transaction) :
    (txs.foldl (processTx addr) p).1 =
      txs.foldl (fun s t => recordSpends addr t s) p.1 := by
  induction txs generalizing p with
  | nil => rfl
  | cons t rest ih =>
      simp only [List.foldl_cons]
      rw [ih]
      rfl

/-- C3: an `(sourceTxId, outputIndex)` pair is recorded as spent in
`unspentTransactionsFor(address)` exactly when some non-coinbase transaction
of the chain has an input referencing that pair whose authorizer is the
queried address.  In particular an input authorized by a different address
records nothing in this address's view, and the inputs of a coinbase
transaction never record a spend. -/
theorem spend_scoping (txs : List Transaction) (addr k : String) (v : Int) :
    mapMem (spentMapOf txs addr) k v ↔
      ∃ t ∈ txs, t.is_coinbase = false ∧
        ∃ inp ∈ t.inputs, inp.sig = addr ∧ inp.txid = k ∧ inp.index = v := by
  have main : ∀ (l : List Transaction) (s : IndexMap),
      mapMem (l.foldl (fun s t => recordSpends addr t s) s) k v ↔
        mapMem s k v ∨ ∃ t ∈ l, t.is_coinbase = false ∧
          ∃ inp ∈ t.inputs, inp.sig = addr ∧ inp.txid = k ∧ inp.index = v := by
    intro l
    induction l with
    | nil => simp
    | cons t rest ih =>
        intro s
        simp only [List.foldl_cons]
        rw [ih, mapMem_recordSpends]
        simp only [List.mem_cons]
        constructor
        · rintro (⟨hm | ⟨hcb, inp, hin, hprops⟩⟩ | ⟨u, hu, hrest⟩)
          · exact Or.inl hm
          · exact Or.inr ⟨t, Or.inl rfl, hcb, inp, hin, hprops⟩
          · exact Or.inr ⟨u, Or.inr hu, hrest⟩
        · rintro (hm | ⟨u, hu | hu, hrest⟩)
          · exact Or.inl (Or.inl hm)
          · subst hu
            exact Or.inl (Or.inr hrest)
          · exact Or.inr ⟨u, hu, hrest⟩
  unfold spentMapOf
  rw [foldl_processTx_fst, main]
  simp [mapMem_nil]

theorem scanOutputs_eq_replicate (addr : String) (spent : IndexMap)
    (t : Transaction) (l : List (Nat × Output)) :
    scanOutputs addr spent t l = List.replicate
      ((l.filter (fun p => !spentHit spent t.id p.1 && p.2.unlocked_by addr)).length)
      t := by
  induction l with
  | nil => rfl
  | cons p rest ih =>
      obtain ⟨i, out⟩ := p
      by_cases hs : spentHit spent t.id i
      · simp [scanOutputs, hs, ih, List.filter_cons]
      · by_cases ho : out.unlocked_by addr
        · simp [scanOutputs, hs, ho, ih, List.filter_cons, List.replicate_succ]
        · simp [scanOutputs, hs, ho, ih, List.filter_cons]

/-- C5: `unspentTransactionsFor` appends a transaction once per output of that
transaction that is not recorded spent and is owned by the queried address;
in particular a transaction with two unspent outputs owned by `"x"` appears
exactly twice, not deduplicated. -/
theorem duplicate_outputs :
    (∀ (addr : String) (s : IndexMap) (u : List Transaction) (t : Transaction),
      (processTx addr (s, u) t).2 = u ++ List.replicate
        ((t.outputs.enum.filter
          (fun p => !spentHit s t.id p.1 && p.2.unlocked_by addr)).length) t) ∧
    unspent_txs_list [tDup] "x" = [tDup, tDup] := by
  constructor
  · intro addr s u t
    simp [processTx, scanOutputs_eq_replicate]
  · rfl

set_option maxRecDepth 10000 in
/-- C10: output positions are narrowed by `i as i8`.  For positions up to 127
the recorded index equals the true position; in general the position is
reduced modulo 256 and reinterpreted as a signed byte, so positions 1 and 257
collide, and in a 258-output transaction whose output 1 was spent, output 257
is wrongly treated as spent as well (only 256 of the 257 remaining outputs
survive). -/
theorem index_cast_narrowing :
    (∀ i : Nat, i ≤ 127 → toI8 i = (i : Int)) ∧
    (∀ i : Nat, toI8 i = toI8 (i % 256)) ∧
    toI8 257 = toI8 1 ∧
    (unspent_txs_list [spendC10, bigTx] "a").length = 256 := by
  refine ⟨?_, ?_, by decide, by decide⟩
  · intro i h
    unfold toI8
    rw [Nat.mod_eq_of_lt (by omega)]
    rw [if_pos (by omega)]
  · intro i
    unfold toI8
    rw [Nat.mod_mod_of_dvd]
    exact dvd_refl _

theorem index_cast_narrowing_witness : toI8 100 = (100 : Int) :=
  index_cast_narrowing.1 100 (by decide)

theorem foldl_wadd_eq_sum (l : List Nat) (s : Nat) (h : s + l.sum < 2 ^ 64) :
    l.foldl wadd s = s + l.sum := by
  induction l generalizing s with
  | nil => simp
  | cons a l ih =>
      rw [List.sum_cons] at h
      have h1 : s + a < 2 ^ 64 := by omega
      have h2 : s + a + l.sum < 2 ^ 64 := by omega
      rw [List.foldl_cons, show wadd s a = s + a from Nat.mod_eq_of_lt h1,
        ih _ h2, List.sum_cons]
      omega

theorem balance_list_eq_foldl (txs : List Transaction) (addr : String) :
    balance_list txs addr =
      ((utxos_list txs addr).map (fun o => o.amount)).foldl wadd 0 := by
  unfold balance_list
  rw [List.foldl_map]

/-- C9 amended: `balance` equals the exact mathematical sum of the amounts of
`utxos(address)` whenever that sum fits in 64 bits; when it does not, the
`u64` accumulator wraps modulo `2 ^ 64` (see the counterexample). -/
theorem balance_exact_amended (txs : List Transaction) (addr : String)
    (h : exactBalance txs addr < 2 ^ 64) :
    balance_list txs addr = exactBalance txs addr := by
  rw [balance_list_eq_foldl,
    foldl_wadd_eq_sum _ 0 (by simpa [exactBalance] using h)]
  simp [exactBalance]

theorem balance_exact_witness :
    balance_list [tDup] "x" = exactBalance [tDup] "x" :=
  balance_exact_amended [tDup] "x" (by decide)

/-- C9 counterexample: for a stored transaction whose owned amounts sum to
`2 ^ 65`, `balance` returns `0`: the `u64` accumulator wraps, so the balance
is not the exact mathematical sum of the `utxos` amounts. -/
theorem balance_overflow_cex :
    balance_list [tBig] "a" = 0 ∧ exactBalance [tBig] "a" = 2 ^ 65 ∧
    balance_list [tBig] "a" ≠ exactBalance [tBig] "a" :=
  ⟨by decide, by decide, by decide⟩

/-- C4: `Blockchain::new` is idempotent with respect to genesis.  On a store
with no `"tip"` key it persists exactly one genesis block (a single coinbase
transaction) and sets it as tip; on a store with a tip it creates nothing and
loads that tip; hence a second construction against the store left by a first
one changes nothing and returns the same tip. -/
theorem genesis_idempotent (H : HashModel) (ts ts' : Nat) (db : Store) :
    (Store.get db "tip" = none →
      Blockchain.new H ts db =
        some (Block.save (genesisBlock H ts) db, (genesisBlock H ts).hash)) ∧
    (∀ t, Store.get db "tip" = some (.str t) →
      Blockchain.new H ts db = some (db, t)) ∧
    (∀ db2 t, Blockchain.new H ts db = some (db2, t) →
      Blockchain.new H ts' db2 = some (db2, t)) := by
  refine ⟨?_, ?_, ?_⟩
  · intro h
    simp [Blockchain.new, h]
  · intro t h
    simp [Blockchain.new, h]
  · intro db2 t h
    unfold Blockchain.new at h ⊢
    cases hg : Store.get db "tip" with
    | none =>
        rw [hg] at h
        simp only [Option.some.injEq, Prod.mk.injEq] at h
        obtain ⟨h1, h2⟩ := h
        subst h1
        subst h2
        simp [Block.save, Store.put, Store.get]
    | some v =>
        cases v with
        | blk b =>
            rw [hg] at h
            simp at h
        | str t0 =>
            rw [hg] at h
            simp only [Option.some.injEq, Prod.mk.injEq] at h
            obtain ⟨h1, h2⟩ := h
            subst h1
            subst h2
            simp [hg]

theorem genesis_idempotent_witness :
    Blockchain.new Hc 2 c1w.db = some (c1w.db, c1w.tip) :=
  (genesis_idempotent Hc 1 2 []).2.2 c1w.db c1w.tip (by rfl)

/-- C8 amended: on an argument shape falling through to the catch-all arm the
program prints `bad args` (and exits 0), but `Blockchain::new` has already
run before the dispatch, so the resulting store is whatever the construction
produced — on a fresh store that includes a newly created genesis block, i.e.
the store is mutated (see the counterexample). -/
theorem bad_args_amended (H : HashModel) (iter : IterFn) (fuel ts : Nat)
    (argv : List String) (db db2 : Store) (t : String)
    (hnew : Blockchain.new H ts db = some (db2, t))
    (hbad : dispatch (argsTriple argv) = .badCmd) :
    mainRun H iter fuel ts argv db = some (db2, .badArgs) := by
  simp [mainRun, hnew, hbad]

theorem bad_args_witness :
    mainRun Hc id 4 1 ["txs"] [] = some (c1w.db, .badArgs) :=
  bad_args_amended Hc id 4 1 ["txs"] [] c1w.db c1w.tip (by rfl) (by rfl)

/-- C8 counterexample: invoking the program with no subcommand on an empty
store prints the usage error, yet the store is mutated (genesis was created
by `Blockchain::new` before the dispatch), contradicting the claim that the
store is not mutated in any way. -/
theorem bad_args_cex :
    (mainRun Hc id 4 1 ["txs"] []).map Prod.snd = some CmdResult.badArgs ∧
    (mainRun Hc id 4 1 ["txs"] []).map Prod.fst ≠ some ([] : Store) :=
  ⟨by decide, by decide⟩

theorem wadd_le (a b : Nat) : wadd a b ≤ a + b := Nat.mod_le _ _

theorem ownedAmounts_cons (addr : String) (i : Nat) (out : Output)
    (rest : List (Nat × Output)) :
    ownedAmounts addr ((i, out) :: rest) =
      if out.unlocked_by addr then out.amount :: ownedAmounts addr rest
      else ownedAmounts addr rest := by
  unfold ownedAmounts
  rw [List.filter_cons]
  by_cases h : out.unlocked_by addr <;> simp [h]

theorem poolAmounts_cons (addr : String) (t : Transaction)
    (rest : List Transaction) :
    poolAmounts addr (t :: rest) =
      ownedAmounts addr t.outputs.enum ++ poolAmounts addr rest := by
  simp [poolAmounts]

theorem selOutputs_cases (addr : String) (amount : Nat) (txid : String)
    (l : List (Nat × Output)) (sum : Nat) (sel : IndexMap) (h : sum < amount) :
    (amount ≤ (selOutputs addr amount txid l sum sel).1 ∧
      (selOutputs addr amount txid l sum sel).2.2 = true) ∨
    ((selOutputs addr amount txid l sum sel).1 =
        List.foldl wadd sum (ownedAmounts addr l) ∧
      (selOutputs addr amount txid l sum sel).1 < amount ∧
      (selOutputs addr amount txid l sum sel).2.2 = false) := by
  induction l generalizing sum sel with
  | nil =>
      right
      simp [selOutputs, ownedAmounts, h]
  | cons p rest ih =>
      obtain ⟨i, out⟩ := p
      by_cases ho : out.unlocked_by addr
      · have hcond : out.unlocked_by addr ∧ sum < amount := ⟨ho, h⟩
        simp only [selOutputs, if_pos hcond]
        by_cases hbr : amount ≤ wadd sum out.amount
        · rw [if_pos hbr]
          left
          exact ⟨hbr, rfl⟩
        · rw [if_neg hbr]
          have h2 : wadd sum out.amount < amount := by omega
          rcases ih (wadd sum out.amount) (mapInsert sel txid (toI8 i)) h2 with
            hl | hr
          · left
            exact hl
          · right
            refine ⟨?_, hr.2.1, hr.2.2⟩
            rw [hr.1, ownedAmounts_cons, if_pos ho, List.foldl_cons]
      · have hcond : ¬(out.unlocked_by addr ∧ sum < amount) := fun hc => ho hc.1
        simp only [selOutputs, if_neg hcond]
        rcases ih sum sel h with hl | hr
        · left
          exact hl
        · right
          rw [ownedAmounts_cons, if_neg ho]
          exact hr

theorem selTxs_cases (addr : String) (amount : Nat) (ts : List Transaction)
    (sum : Nat) (sel : IndexMap) (h : sum < amount) :
    amount ≤ (selTxs addr amount ts sum sel).1 ∨
    (selTxs addr amount ts sum sel).1 =
      List.foldl wadd sum (poolAmounts addr ts) := by
  induction ts generalizing sum sel with
  | nil =>
      right
      simp [selTxs, poolAmounts]
  | cons t rest ih =>
      have hc := selOutputs_cases addr amount t.id t.outputs.enum sum sel h
      simp only [selTxs]
      rcases hres : selOutputs addr amount t.id t.outputs.enum sum sel with
        ⟨sum', sel', brk⟩
      rw [hres] at hc
      simp only at hc
      cases brk with
      | true =>
          rcases hc with ⟨h1, _⟩ | ⟨_, _, hfalse⟩
          · left
            simpa using h1
          · exact absurd hfalse (by simp)
      | false =>
          rcases hc with ⟨_, hfalse⟩ | ⟨heq, hlt, _⟩
          · exact absurd hfalse (by simp)
          · rw [if_neg Bool.false_ne_true]
            rcases ih sum' sel' hlt with hl | hr
            · left
              exact hl
            · right
              rw [hr, heq, poolAmounts_cons, List.foldl_append]

theorem selOutputs_le (addr : String) (amount : Nat) (txid : String)
    (l : List (Nat × Output)) (sum : Nat) (sel : IndexMap) :
    (selOutputs addr amount txid l sum sel).1 ≤
      sum + (ownedAmounts addr l).sum := by
  induction l generalizing sum sel with
  | nil => simp [selOutputs, ownedAmounts]
  | cons p rest ih =>
      obtain ⟨i, out⟩ := p
      rw [ownedAmounts_cons]
      by_cases ho : out.unlocked_by addr
      · rw [if_pos ho, List.sum_cons]
        by_cases hc : out.unlocked_by addr ∧ sum < amount
        · simp only [selOutputs, if_pos hc]
          by_cases hbr : amount ≤ wadd sum out.amount
          · rw [if_pos hbr]
            have h2 := wadd_le sum out.amount
            simp only
            omega
          · rw [if_neg hbr]
            have h1 := ih (wadd sum out.amount) (mapInsert sel txid (toI8 i))
            have h2 := wadd_le sum out.amount
            omega
        · simp only [selOutputs, if_neg hc]
          have h1 := ih sum sel
          omega
      · rw [if_neg ho]
        have hc : ¬(out.unlocked_by addr ∧ sum < amount) := fun hh => ho hh.1
        simp only [selOutputs, if_neg hc]
        exact ih sum sel

theorem selTxs_le (addr : String) (amount : Nat) (ts : List Transaction)
    (sum : Nat) (sel : IndexMap) :
    (selTxs addr amount ts sum sel).1 ≤ sum + (poolAmounts addr ts).sum := by
  induction ts generalizing sum sel with
  | nil => simp [selTxs, poolAmounts]
  | cons t rest ih =>
      rw [poolAmounts_cons, List.sum_append]
      have hle := selOutputs_le addr amount t.id t.outputs.enum sum sel
      simp only [selTxs]
      rcases hres : selOutputs addr amount t.id t.outputs.enum sum sel with
        ⟨sum', sel', brk⟩
      rw [hres] at hle
      simp only at hle
      cases brk with
      | true =>
          rw [if_pos rfl]
          omega
      | false =>
          rw [if_neg Bool.false_ne_true]
          have h1 := ih sum' sel'
          dsimp only at h1 ⊢
          omega

theorem ownedAmounts_enumFrom (addr : String) (l : List Output) (n : Nat) :
    ownedAmounts addr (List.enumFrom n l) =
      (l.filter (fun o => o.unlocked_by addr)).map (fun o => o.amount) := by
  induction l generalizing n with
  | nil => rfl
  | cons o rest ih =>
      rw [List.enumFrom_cons, ownedAmounts_cons, List.filter_cons]
      by_cases h : o.unlocked_by addr
      · rw [if_pos h, ih]
        simp [h]
      · rw [if_neg h, ih]
        simp [h]

theorem ownedAmounts_enum (addr : String) (l : List Output) :
    ownedAmounts addr l.enum =
      (l.filter (fun o => o.unlocked_by addr)).map (fun o => o.amount) :=
  ownedAmounts_enumFrom addr l 0

theorem poolAmounts_eq (txs : List Transaction) (addr : String) :
    poolAmounts addr (unspent_txs_list txs addr) =
      (utxos_list txs addr).map (fun o => o.amount) := by
  unfold poolAmounts utxos_list
  rw [List.map_flatMap]
  congr 1
  funext t
  exact ownedAmounts_enum addr t.outputs

theorem balance_eq_pool (txs : List Transaction) (addr : String) :
    balance_list txs addr =
      List.foldl wadd 0 (poolAmounts addr (unspent_txs_list txs addr)) := by
  rw [balance_list_eq_foldl, poolAmounts_eq]

theorem exactBalance_eq_pool (txs : List Transaction) (addr : String) :
    exactBalance txs addr =
      (poolAmounts addr (unspent_txs_list txs addr)).sum := by
  rw [exactBalance, poolAmounts_eq]

theorem send_eq_of_blocks (H : HashModel) (iter : IterFn) (c : ChainState)
    (fuel : Nat) (frm dst : String) (amount : Nat) (bs : List Block)
    (hb : Blockchain.blocks c fuel = some bs) :
    Blockchain.send H iter c fuel frm dst amount =
      send_list H iter (chainTxs bs) frm dst amount := by
  unfold Blockchain.send
  rw [hb]

/-- C1: whenever `amount ≤ balance(address)`, the coin selector returns a
selected sum of at least `amount`, and the transaction `send` builds has one
output `{amount, owner := dst}` followed by exactly one change output
`{selectedSum - amount, owner := frm}` when the selected sum exceeds
`amount`, and no change output when they are equal. -/
theorem selection_correct (H : HashModel) (iter : IterFn) (c : ChainState)
    (fuel : Nat) (frm dst : String) (amount : Nat) (bs : List Block)
    (hb : Blockchain.blocks c fuel = some bs)
    (hbal : amount ≤ balance_list (chainTxs bs) frm) :
    amount ≤ (unspent_outputs_list (chainTxs bs) frm amount).1 ∧
    ∃ tx, Blockchain.send H iter c fuel frm dst amount = .ok tx ∧
      tx.outputs = { amount := amount, pubkey := dst } ::
        (if (unspent_outputs_list (chainTxs bs) frm amount).1 > amount
         then [{ amount := (unspent_outputs_list (chainTxs bs) frm amount).1 - amount,
                 pubkey := frm }]
         else []) := by
  have hkey : amount ≤ (unspent_outputs_list (chainTxs bs) frm amount).1 := by
    by_cases h0 : amount = 0
    · subst h0
      exact Nat.zero_le _
    · have hpos : 0 < amount := Nat.pos_of_ne_zero h0
      unfold unspent_outputs_list
      rcases selTxs_cases frm amount (unspent_txs_list (chainTxs bs) frm) 0 []
        hpos with hl | hr
      · exact hl
      · rw [hr, ← balance_eq_pool]
        exact hbal
  refine ⟨hkey, ?_⟩
  rw [send_eq_of_blocks H iter c fuel frm dst amount bs hb]
  simp only [send_list]
  rw [if_neg (by omega)]
  exact ⟨_, rfl, rfl⟩

theorem selection_correct_witness :
    10 ≤ (unspent_outputs_list (chainTxs [genesisBlock Hc 1]) "dog" 10).1 ∧
    ∃ tx, Blockchain.send Hc id c1w 3 "dog" "cat" 10 = .ok tx ∧
      tx.outputs = { amount := 10, pubkey := "cat" } ::
        (if (unspent_outputs_list (chainTxs [genesisBlock Hc 1]) "dog" 10).1 > 10
         then [{ amount :=
                  (unspent_outputs_list (chainTxs [genesisBlock Hc 1]) "dog" 10).1 - 10,
                 pubkey := "dog" }]
         else []) :=
  selection_correct Hc id c1w 3 "dog" "cat" 10 [genesisBlock Hc 1] (by rfl)
    (by decide)

/-- C2 amended: whenever `amount` exceeds the exact (unbounded) sum of the
amounts the address's balance is computed from, `send` fails with the
insufficient-funds error before constructing any transaction, no block is
appended, and the state (hence the block list and tip) is unchanged.  (As
stated over the code's wrapping `u64` balance the claim fails: see the
counterexample, where the balance wraps to 0 yet the transfer succeeds.) -/
theorem insufficient_funds_amended (H : HashModel) (iter : IterFn) (ts : Nat)
    (c : ChainState) (fuel : Nat) (frm dst : String) (amount : Nat)
    (bs : List Block)
    (hb : Blockchain.blocks c fuel = some bs)
    (h : exactBalance (chainTxs bs) frm < amount) :
    Blockchain.send H iter c fuel frm dst amount = .error .insufficientFunds ∧
    Blockchain.transfer H iter ts c fuel frm dst amount =
      (c, .error .insufficientFunds) := by
  have hsum : (unspent_outputs_list (chainTxs bs) frm amount).1 < amount := by
    have h1 := selTxs_le frm amount (unspent_txs_list (chainTxs bs) frm) 0 []
    have h2 := exactBalance_eq_pool (chainTxs bs) frm
    unfold unspent_outputs_list
    omega
  have hsend : Blockchain.send H iter c fuel frm dst amount =
      .error .insufficientFunds := by
    rw [send_eq_of_blocks H iter c fuel frm dst amount bs hb]
    simp only [send_list]
    rw [if_pos hsum]
  refine ⟨hsend, ?_⟩
  unfold Blockchain.transfer
  rw [hsend]

theorem insufficient_funds_witness :
    Blockchain.send Hc id c1w 3 "nobody" "cat" 1 = .error .insufficientFunds ∧
    Blockchain.transfer Hc id 9 c1w 3 "nobody" "cat" 1 =
      (c1w, .error .insufficientFunds) :=
  insufficient_funds_amended Hc id 9 c1w 3 "nobody" "cat" 1
    [genesisBlock Hc 1] (by rfl) (by decide)

/-- C2 counterexample: on a store holding outputs of `2 ^ 64 - 1` and `1` for
`"a"`, the wrapping `u64` balance is `0`, yet `send`/`transfer` of amount `5`
(which exceeds that balance) succeeds instead of failing with the
insufficient-funds error. -/
theorem insufficient_funds_cex :
    balance_list (chainTxs [bBig]) "a" = 0 ∧
    (Blockchain.send Hc id cBig 3 "a" "b" 5).toOption.isSome = true ∧
    (Blockchain.transfer Hc id 9 cBig 3 "a" "b" 5).2 ≠
      .error .insufficientFunds :=
  ⟨by decide, by decide, by decide⟩

/-- C7 amended: coin selection itself is deterministic (the selected sum and
the per-transaction index lists, in index order, are a function of the store
and the arguments), and the built transaction has exactly one input per
selected `(txId, index)` with `authorizer = frm` — but the inputs are emitted
in the `HashMap` iteration order over the selection, which is unspecified, so
two runs agree only up to permutation of the per-transaction input groups.
They produce identical transactions whenever the selection involves at most
one transaction id; with two or more ids the transactions can differ (see the
counterexample). -/
theorem send_order_amended (H : HashModel) (iter : IterFn) (c : ChainState)
    (fuel : Nat) (frm dst : String) (amount : Nat) (bs : List Block)
    (tx : Transaction)
    (hperm : ∀ l : IndexMap, List.Perm (iter l) l)
    (hb : Blockchain.blocks c fuel = some bs)
    (hok : Blockchain.send H iter c fuel frm dst amount = .ok tx) :
    List.Perm tx.inputs
      (canonInputs (unspent_outputs_list (chainTxs bs) frm amount).2 frm) ∧
    ((unspent_outputs_list (chainTxs bs) frm amount).2.length ≤ 1 →
      Blockchain.send H iter c fuel frm dst amount =
        Blockchain.send H id c fuel frm dst amount) := by
  rw [send_eq_of_blocks H iter c fuel frm dst amount bs hb] at hok
  rw [send_eq_of_blocks H iter c fuel frm dst amount bs hb,
    send_eq_of_blocks H id c fuel frm dst amount bs hb]
  simp only [send_list] at hok ⊢
  by_cases hlt : (unspent_outputs_list (chainTxs bs) frm amount).1 < amount
  · rw [if_pos hlt] at hok
    simp at hok
  · rw [if_neg hlt] at hok
    rw [if_neg hlt, if_neg hlt]
    have hiter : ∀ (sel : IndexMap), sel.length ≤ 1 → iter sel = sel := by
      intro sel hlen1
      cases sel with
      | nil => exact List.Perm.eq_nil (hperm [])
      | cons x l =>
          cases l with
          | nil => exact List.perm_singleton.mp (hperm [x])
          | cons y m => simp at hlen1
    cases hok
    constructor
    · simp only [Transaction.new]
      unfold canonInputs
      exact List.Perm.flatMap_right _ (hperm _)
    · intro hlen
      rw [hiter _ hlen]
      rfl

theorem send_order_witness :
    List.Perm txW.inputs
      (canonInputs (unspent_outputs_list (chainTxs [genesisBlock Hc 1]) "dog" 10).2
        "dog") ∧
    ((unspent_outputs_list (chainTxs [genesisBlock Hc 1]) "dog" 10).2.length ≤ 1 →
      Blockchain.send Hc List.reverse c1w 3 "dog" "cat" 10 =
        Blockchain.send Hc id c1w 3 "dog" "cat" 10) :=
  send_order_amended Hc List.reverse c1w 3 "dog" "cat" 10 [genesisBlock Hc 1] txW
    (fun l => List.reverse_perm l) (by rfl) (by decide)

/-- C7 counterexample: on a state whose selection spans two transaction ids,
two valid `HashMap` iteration orders (the identity and the reversal, a
permutation of the selection) make `send` build different transactions, so
two runs need not produce identical transactions. -/
theorem send_order_cex :
    List.Perm
      (List.reverse (unspent_outputs_list (chainTxs [b7]) "a" 8).2)
      (unspent_outputs_list (chainTxs [b7]) "a" 8).2 ∧
    Blockchain.send Hc List.reverse c7 3 "a" "b" 8 ≠
      Blockchain.send Hc id c7 3 "a" "b" 8 :=
  ⟨List.reverse_perm _, by decide⟩

theorem built_props (H : HashModel) (c : ChainState) (bs : List Block)
    (h : Built H c bs) : bs ≠ [] ∧ c.tip = headHash bs ∧ Linked bs := by
  induction h with
  | init ts =>
      refine ⟨by simp, rfl, ?_⟩
      show (genesisBlock H ts).prev_hash = ""
      rfl
  | step c bs ts txs hb ih =>
      obtain ⟨hne, htip, hlink⟩ := ih
      refine ⟨by simp, rfl, ?_⟩
      cases bs with
      | nil => exact absurd rfl hne
      | cons b2 rest =>
          refine ⟨?_, hlink⟩
          show (Block.new H ts txs c.tip).prev_hash = b2.hash
          rw [show (Block.new H ts txs c.tip).prev_hash = c.tip from rfl, htip]
          rfl

theorem built_get (H : HashModel) (c : ChainState) (bs : List Block)
    (h : Built H c bs) :
    (∀ b ∈ bs, b.hash ≠ "tip") → (bs.map Block.hash).Nodup →
    ∀ b ∈ bs, Store.get c.db b.hash = some (.blk b) := by
  induction h with
  | init ts =>
      intro htip _ b hb
      simp only [List.mem_singleton] at hb
      subst hb
      have hne := htip (genesisBlock H ts) (by simp)
      show Store.get (Block.save (genesisBlock H ts) []) (genesisBlock H ts).hash = _
      simp [Block.save, Store.put, Store.get, beq_iff_eq, Ne.symm hne]
  | step c bs ts txs hb ih =>
      intro htip hnd b hbmem
      have htip' : ∀ x ∈ bs, x.hash ≠ "tip" :=
        fun x hx => htip x (List.mem_cons_of_mem _ hx)
      have hnd' : (bs.map Block.hash).Nodup := by
        rw [List.map_cons] at hnd
        exact hnd.of_cons
      have hnotin : (Blockchain.add H ts c txs).2.hash ∉ bs.map Block.hash := by
        rw [List.map_cons] at hnd
        exact (List.nodup_cons.mp hnd).1
      rcases List.mem_cons.mp hbmem with rfl | hbmem'
      · have hne := htip (Blockchain.add H ts c txs).2 (by simp)
        show Store.get (Block.save (Block.new H ts txs c.tip) c.db)
          (Block.new H ts txs c.tip).hash = _
        have hne3 : (Block.new H ts txs c.tip).hash ≠ "tip" := hne
        simp only [Block.save, Store.put, Store.get, beq_iff_eq]
        simp only [Ne.symm hne3, if_false, if_pos rfl]
        rfl
      · have hne1 : b.hash ≠ "tip" := htip' b hbmem'
        have hne2 : b.hash ≠ (Blockchain.add H ts c txs).2.hash := by
          intro hc
          apply hnotin
          rw [← hc]
          exact List.mem_map_of_mem _ hbmem'
        have hrec := ih htip' hnd' b hbmem'
        show Store.get (Block.save (Block.new H ts txs c.tip) c.db) b.hash = _
        simp only [Block.save, Store.put, Store.get]
        rw [if_neg (by simp [beq_iff_eq]; exact Ne.symm hne1),
          if_neg (by simp [beq_iff_eq]; exact fun hc => hne2 hc.symm)]
        exact hrec

theorem blocksAux_exact (db : Store) (bs : List Block)
    (hget : ∀ b ∈ bs, Store.get db b.hash = some (.blk b))
    (hlink : Linked bs)
    (hne : ∀ b ∈ bs, b.hash ≠ "") :
    blocksAux db bs.length (headHash bs) = some bs ∧
    ∀ m < bs.length, blocksAux db m (headHash bs) = none := by
  induction bs with
  | nil =>
      refine ⟨rfl, ?_⟩
      intro m hm
      exact absurd hm (Nat.not_lt_zero m)
  | cons b rest ih =>
      have hbne : b.hash ≠ "" := hne b (by simp)
      have hgetb : Store.get db b.hash = some (.blk b) := hget b (by simp)
      have hprev : b.prev_hash = headHash rest := by
        cases rest with
        | nil => exact hlink
        | cons b2 r2 => exact hlink.1
      have hget' : ∀ x ∈ rest, Store.get db x.hash = some (.blk x) :=
        fun x hx => hget x (List.mem_cons_of_mem _ hx)
      have hlink' : Linked rest := by
        cases rest with
        | nil => trivial
        | cons b2 r2 => exact hlink.2
      have hne' : ∀ x ∈ rest, x.hash ≠ "" :=
        fun x hx => hne x (List.mem_cons_of_mem _ hx)
      obtain ⟨ih1, ih2⟩ := ih hget' hlink' hne'
      constructor
      · show blocksAux db (rest.length + 1) b.hash = some (b :: rest)
        simp only [blocksAux]
        rw [if_neg hbne, hgetb]
        show Option.map (fun l => b :: l) (blocksAux db rest.length b.prev_hash) =
          some (b :: rest)
        rw [hprev, ih1]
        rfl
      · intro m hm
        cases m with
        | zero =>
            show blocksAux db 0 b.hash = none
            simp [blocksAux, hbne]
        | succ k =>
            have hk : k < rest.length := by
              simpa using hm
            show blocksAux db (k + 1) b.hash = none
            simp only [blocksAux]
            rw [if_neg hbne, hgetb]
            show Option.map (fun l => b :: l) (blocksAux db k b.prev_hash) = none
            rw [hprev, ih2 k hk]
            rfl

/-- C6: from any reachable state (genesis plus the blocks appended since),
the chain walk from the tip succeeds with exactly `N` lookups — where `N` is
the number of blocks ever appended, genesis included — returning the blocks
newest-first from the tip back to genesis, and fails given fewer than `N`
lookups (it has not yet reached the `prevHash == ""` sentinel).  The chain's
block hashes are assumed pairwise distinct, nonempty, and distinct from the
`"tip"` key (the spec treats digest collision-freedom as a cryptographic
given). -/
theorem chain_termination (H : HashModel) (c : ChainState) (bs : List Block)
    (hB : Built H c bs)
    (hnd : (bs.map Block.hash).Nodup)
    (hsafe : ∀ b ∈ bs, b.hash ≠ "tip" ∧ b.hash ≠ "") :
    Blockchain.blocks c bs.length = some bs ∧
    ∀ m < bs.length, Blockchain.blocks c m = none := by
  have hprops := built_props H c bs hB
  have hget := built_get H c bs hB (fun b hb => (hsafe b hb).1) hnd
  have hwalk := blocksAux_exact c.db bs hget hprops.2.2
    (fun b hb => (hsafe b hb).2)
  unfold Blockchain.blocks
  rw [hprops.2.1]
  exact hwalk

theorem chain_termination_witness :
    Blockchain.blocks c2w 2 = some bs2w ∧ Blockchain.blocks c2w 1 = none := by
  have h := chain_termination Hc c2w bs2w
    (Built.step c1w [genesisBlock Hc 1] 2 [] (Built.init 1))
    (by decide) (by decide)
  exact ⟨h.1, h.2 1 (by decide)⟩
